import Mathlib

/-!
Verification development for the ephemeral chat synchronization core in
src/gui/src/app/WorkshopChat/WorkshopChat.tsx.

The embedding models:
  - the ChatMessage envelope and its JSON payload (decoded form of messageJson),
  - the pure reducer chatCommentsReducer (dedup / sort / expiry),
  - the watermark-update effect and handleClearAllComments,
  - the inbound message handler (comment / request-history / history routing),
  - the history batching loop,
  - getCaughtUpTimestamp with a faithful model of JavaScript parseInt.

Timestamps are epoch milliseconds, modelled as Int (JavaScript numbers hold
these integer values exactly).  Code that can throw (JSON.parse on a malformed
string) is modelled with Except Unit: .error () is a thrown exception.
-/

namespace WorkshopChat

/-- A JavaScript number as produced by parseInt: either an integer value or NaN. -/
inductive JSNumber
  | int (n : Int)
  | nan
deriving DecidableEq, Repr

mutual

/-- The signed transport envelope (ChatMessage from EphemeriChatClient/types):
systemSignature (unique id), senderPublicKey, timestamp (epoch ms) and the raw
payload string messageJson.  The string is modelled by the outcome of
JSON.parse on it (MsgJson), since the code only ever inspects that outcome. -/
inductive ChatMessage
  | mk (systemSignature senderPublicKey : String) (timestamp : Int)
       (messageJson : MsgJson)

/-- Outcome of JSON.parse on a messageJson string: either the parse throws
(malformed), or it yields an object whose type field is one of the three
recognized payload shapes, or some other parsed value (unknownType).  A
history payload carries a list of nested ChatMessage envelopes. -/
inductive MsgJson
  | malformed
  | commentMsg (userName comment : String)
  | requestHistory (startTimestamp : Int)
  | history (comments : List ChatMessage)
  | unknownType

end

def ChatMessage.systemSignature : ChatMessage → String
  | .mk s _ _ _ => s

def ChatMessage.senderPublicKey : ChatMessage → String
  | .mk _ p _ _ => p

def ChatMessage.timestamp : ChatMessage → Int
  | .mk _ _ t _ => t

def ChatMessage.messageJson : ChatMessage → MsgJson
  | .mk _ _ _ j => j

/-- JavaScript property access msg.userName on the decoded payload: a string
for a comment payload, undefined (none) for every other payload shape. -/
def MsgJson.userNameField : MsgJson → Option String
  | .commentMsg u _ => some u
  | _ => none

/-- JavaScript property access msg.comment on the decoded payload. -/
def MsgJson.commentField : MsgJson → Option String
  | .commentMsg _ c => some c
  | _ => none

/-- Whether JSON.parse would throw on this messageJson. -/
def MsgJson.isMalformed : MsgJson → Bool
  | .malformed => true
  | _ => false

/-- The in-memory ChatComment record built by the reducer (lines 70-77).
userName and comment hold the runtime values of msg.userName / msg.comment,
which are undefined (none) when the payload is not a comment payload. -/
structure ChatComment where
  commentId : String
  senderPublicKey : String
  userName : Option String
  timestamp : Int
  comment : Option String
  chatMessage : ChatMessage

/-- expireTimeMsec = 1000 * 60 * 60 * 1 (line 56): one hour in milliseconds. -/
def expireTimeMsec : Int := 1000 * 60 * 60 * 1

/-- The comparator a.timestamp - b.timestamp passed to Array.prototype.sort
(line 80), as the ordering relation it induces. -/
def commentLE (a b : ChatComment) : Prop := a.timestamp ≤ b.timestamp

instance : DecidableRel commentLE := fun a b =>
  inferInstanceAs (Decidable (a.timestamp ≤ b.timestamp))

instance : IsTotal ChatComment commentLE :=
  ⟨fun a b => Int.le_total a.timestamp b.timestamp⟩

instance : IsTrans ChatComment commentLE :=
  ⟨fun _ _ _ h h' => le_trans h h'⟩

/-- Construction of the ChatComment from an envelope (lines 69-77). -/
def mkChatComment (m : ChatMessage) : ChatComment where
  commentId := m.systemSignature
  senderPublicKey := m.senderPublicKey
  userName := m.messageJson.userNameField
  timestamp := m.timestamp
  comment := m.messageJson.commentField
  chatMessage := m

/-- The add branch of chatCommentsReducer (lines 63-81), with now standing for
Date.now() at reduce time.  Order of operations as in the source: expiry check
first, then JSON.parse (which throws on a malformed string, modelled as
.error ()), then the dedup lookup, then append-and-stable-sort.  JavaScript
Array.prototype.sort is stable, so the sort is modelled by insertion sort,
which is the stable sort for this comparator. -/
def addComment (now : Int) (state : List ChatComment) (m : ChatMessage) :
    Except Unit (List ChatComment) :=
  if m.timestamp < now - expireTimeMsec then .ok state
  else if m.messageJson.isMalformed then .error ()
  else if state.any (fun c => c.commentId == (mkChatComment m).commentId) then
    .ok state
  else .ok (List.insertionSort commentLE (state ++ [mkChatComment m]))

/-- The reducer actions (lines 43-54). -/
inductive ChatCommentAction
  | add (commentChatMessage : ChatMessage)
  | addMultiple (commentChatMessages : List ChatMessage)
  | clear

/-- chatCommentsReducer (lines 58-94).  addMultiple folds the add case over
the list, each reduction feeding the next (lines 82-88); an exception thrown
by any add propagates out of the loop, hence foldlM in Except. -/
def chatCommentsReducer (now : Int) (state : List ChatComment) :
    ChatCommentAction → Except Unit (List ChatComment)
  | .add m => addComment now state m
  | .addMultiple ms => ms.foldlM (addComment now) state
  | .clear => .ok []

/-- Store states reachable from the empty store by successful reducer steps
(a step that throws crashes the component and yields no state). -/
inductive Reachable : List ChatComment → Prop
  | empty : Reachable []
  | step (now : Int) (a : ChatCommentAction) (s s' : List ChatComment) :
      Reachable s → chatCommentsReducer now s a = .ok s' → Reachable s'

/-- The watermark-update effect (lines 189-197): for each comment of the
store in order, read the watermark and overwrite it with the comment's
timestamp when strictly larger.  w is the persisted value at effect start;
each iteration reads the current value afresh.  Returns the final persisted
value. -/
def updateCaughtUp (w : Int) : List ChatComment → Int
  | [] => w
  | c :: cs =>
      if c.timestamp > w then updateCaughtUp c.timestamp cs
      else updateCaughtUp w cs

/-- The values passed to setCaughtUpTimestamp by the effect of lines 189-197,
in order. -/
def caughtUpSets (w : Int) : List ChatComment → List Int
  | [] => []
  | c :: cs =>
      if c.timestamp > w then c.timestamp :: caughtUpSets c.timestamp cs
      else caughtUpSets w cs

/-- Session state relevant to the watermark: the in-memory store and the
persisted watermark. -/
structure SessionState where
  comments : List ChatComment
  watermark : Int

/-- Watermark-relevant session events: a comment delivery processed at wall
clock now (reducer add followed by the watermark-update effect of lines
189-197), and handleClearAllComments (lines 220-224), which deletes the
durable store, sets the watermark to Date.now() and clears the store. -/
inductive SessionEvent
  | deliverComment (now : Int) (m : ChatMessage)
  | clearAll (now : Int)

/-- One session step.  The second component lists the values passed to
setCaughtUpTimestamp during the step: the trace of the update effect for a
delivery, and the single unconditional Set performed by
handleClearAllComments. -/
def sessionStep (s : SessionState) :
    SessionEvent → Except Unit (SessionState × List Int)
  | .deliverComment now m =>
      (addComment now s.comments m).map fun cs =>
        (⟨cs, updateCaughtUp s.watermark cs⟩, caughtUpSets s.watermark cs)
  | .clearAll now => .ok (⟨[], now⟩, [now])

/-- The inner while loop of the responder role (lines 127-136): consume
comments while the running size0 stays below 10000 and items remain, pushing
the envelopes with timestamp > startTimestamp and adding their serialized
size.  Returns the accumulated batch (acc is kept reversed) and the remaining
comments. -/
def takeBatch (startTimestamp : Int) (size : ChatMessage → Nat) :
    List ChatComment → Nat → List ChatMessage →
    List ChatMessage × List ChatComment
  | [], _, acc => (acc.reverse, [])
  | c :: rest, size0, acc =>
      if size0 < 10000 then
        if c.chatMessage.timestamp > startTimestamp then
          takeBatch startTimestamp size rest (size0 + size c.chatMessage)
            (c.chatMessage :: acc)
        else takeBatch startTimestamp size rest size0 acc
      else (acc.reverse, c :: rest)

/-- The outer while loop of the responder role (lines 125-144): repeatedly
form a batch, publishing it only when non-empty, until the comment list is
exhausted.  size is JSON.stringify(mm).length. -/
def sendBatches (startTimestamp : Int) (size : ChatMessage → Nat) :
    List ChatComment → List (List ChatMessage)
  | [] => []
  | c :: rest =>
      let p := takeBatch startTimestamp size (c :: rest) 0 []
      if p.1.isEmpty then sendBatches startTimestamp size p.2
      else p.1 :: sendBatches startTimestamp size p.2
termination_by l => l.length
decreasing_by
  all_goals
    have Hle : ∀ (l : List ChatComment) (s0 : Nat) (acc : List ChatMessage),
        (takeBatch startTimestamp size l s0 acc).2.length ≤ l.length := by
      intro l
      induction l with
      | nil => intro _ _; simp [takeBatch]
      | cons d ds ih =>
        intro s0 acc
        simp only [takeBatch]
        split
        · split <;> exact le_trans (ih _ _) (Nat.le_succ _)
        · simp
    have Hlt : ∀ (d : ChatComment) (ds : List ChatComment)
        (acc : List ChatMessage),
        (takeBatch startTimestamp size (d :: ds) 0 acc).2.length <
          (d :: ds).length := by
      intro d ds acc
      have h3 : (0 : Nat) < 10000 := by norm_num
      simp only [takeBatch, if_pos h3]
      split <;> exact Nat.lt_succ_of_le (Hle ds _ _)
    exact Hlt _ _ _

/-- The inbound message handler (lines 118-155), as a transformer of the
store state carried in the closure, paired with the list of payloads passed
to publish.  now models Date.now() at the reducer runs, w the integer
watermark returned by getCaughtUpTimestamp during history ingestion (read
afresh per item but not written during the loop), and size the serialized
length JSON.stringify(mm).length.  The JSON.parse at line 119 is unguarded: a
malformed messageJson throws out of the handler, modelled as .error (). -/
def onMessage (now w : Int) (size : ChatMessage → Nat)
    (chatComments : List ChatComment) (m : ChatMessage) :
    Except Unit (List ChatComment × List MsgJson) :=
  match m.messageJson with
  | .malformed => .error ()
  | .commentMsg _ _ => (addComment now chatComments m).map fun s => (s, [])
  | .requestHistory startTimestamp =>
      .ok (chatComments,
        (sendBatches startTimestamp size chatComments).map MsgJson.history)
  | .history cs =>
      (cs.foldlM
        (fun s c => if c.timestamp < w then pure s else addComment now s c)
        chatComments).map fun s => (s, [])
  | .unknownType => .ok (chatComments, [])

/-- JavaScript whitespace characters skipped by parseInt (ASCII portion;
exotic Unicode whitespace is irrelevant to the stored watermark strings). -/
def jsWhitespace (c : Char) : Bool :=
  c = ' ' || c = '\t' || c = '\n' || c = '\r'

/-- Numeric value of a character as a radix digit; 99 for a non-digit (any
value at least 16 acts as a sentinel). -/
def digitValue (c : Char) : Nat :=
  if '0' ≤ c ∧ c ≤ '9' then c.toNat - 48
  else if 'a' ≤ c ∧ c ≤ 'f' then c.toNat - 97 + 10
  else if 'A' ≤ c ∧ c ≤ 'F' then c.toNat - 65 + 10
  else 99

/-- ECMAScript parseInt(string) with radix undefined: skip leading
whitespace, read an optional sign, detect a 0x / 0X hex prefix (radix 16,
otherwise 10), then take the longest prefix of radix digits; the result is
NaN when that prefix is empty, and parseInt never throws. -/
def parseIntJS (s : String) : JSNumber :=
  let cs := s.data.dropWhile jsWhitespace
  let sign : Int := if cs.head? = some '-' then -1 else 1
  let cs :=
    if cs.head? = some '-' ∨ cs.head? = some '+' then cs.tail else cs
  let radix : Nat :=
    if cs.take 2 = ['0', 'x'] ∨ cs.take 2 = ['0', 'X'] then 16 else 10
  let cs :=
    if cs.take 2 = ['0', 'x'] ∨ cs.take 2 = ['0', 'X'] then cs.drop 2 else cs
  let digits := cs.takeWhile (fun c => digitValue c < radix)
  if digits.isEmpty then .nan
  else .int (sign *
    (digits.foldl (fun acc c => acc * radix + digitValue c) 0 : Nat))

/-- getCaughtUpTimestamp (lines 556-567).  read is the outcome of
localStorage.getItem inside the try block: .error () when the read throws,
otherwise the stored string or none.  A non-empty stored string is truthy and
is handed to parseInt; otherwise, and when the read throws, the default
now - 24h is returned. -/
def getCaughtUpTimestamp (read : Except Unit (Option String)) (now : Int) :
    JSNumber :=
  match read with
  | .ok (some a) =>
      if a ≠ "" then parseIntJS a else .int (now - 1000 * 60 * 60 * 24)
  | .ok none => .int (now - 1000 * 60 * 60 * 24)
  | .error _ => .int (now - 1000 * 60 * 60 * 24)

/-- Sample comment envelope, timestamp 5000. -/
def mA : ChatMessage := .mk "sigA" "pkA" 5000 (.commentMsg "alice" "hello")

/-- Sample comment envelope, timestamp 4000. -/
def mB : ChatMessage := .mk "sigB" "pkB" 4000 (.commentMsg "bob" "hi")

/-- Sample envelope whose messageJson does not parse. -/
def mBad : ChatMessage := .mk "sigX" "pkX" 0 .malformed

/-- Sample envelope whose payload is a request-history message. -/
def mReq : ChatMessage := .mk "sigR" "pkR" 4000 (.requestHistory 7)

/-! ## Theorems -/

theorem addComment_ok_cases {now : Int} {s s' : List ChatComment}
    {m : ChatMessage} (h : addComment now s m = .ok s') :
    s' = s ∨ ((∀ c ∈ s, c.commentId ≠ m.systemSignature) ∧
      s' = List.insertionSort commentLE (s ++ [mkChatComment m])) := by
  unfold addComment at h
  split at h
  · exact Or.inl (Except.ok.inj h).symm
  · split at h
    · exact absurd h (by simp)
    · split at h
      · exact Or.inl (Except.ok.inj h).symm
      · rename_i hany
        refine Or.inr ⟨?_, (Except.ok.inj h).symm⟩
        intro c hc
        simp only [List.any_eq_true, beq_iff_eq, not_exists] at hany
        push_neg at hany
        exact hany c hc

theorem addComment_mem {now : Int} {s s' : List ChatComment}
    {m : ChatMessage} (h : addComment now s m = .ok s') :
    ∀ x ∈ s', x ∈ s ∨ x = mkChatComment m := by
  intro x hx
  rcases addComment_ok_cases h with h1 | ⟨_, h2⟩
  · exact Or.inl (h1 ▸ hx)
  · subst h2
    have := (List.perm_insertionSort commentLE (s ++ [mkChatComment m])).mem_iff.mp hx
    simpa using this

theorem addComment_nodup {now : Int} {s s' : List ChatComment}
    {m : ChatMessage} (h : addComment now s m = .ok s')
    (hs : (s.map ChatComment.commentId).Nodup) :
    (s'.map ChatComment.commentId).Nodup := by
  rcases addComment_ok_cases h with h1 | ⟨hfresh, h2⟩
  · exact h1 ▸ hs
  · subst h2
    have hp := (List.perm_insertionSort commentLE
      (s ++ [mkChatComment m])).map ChatComment.commentId
    refine hp.nodup_iff.mpr ?_
    simp only [List.map_append, List.map_cons, List.map_nil]
    rw [List.nodup_append]
    refine ⟨hs, List.nodup_singleton _, ?_⟩
    intro i hi hj
    simp only [List.mem_singleton] at hj
    subst hj
    obtain ⟨c, hc, hci⟩ := List.mem_map.mp hi
    exact hfresh c hc hci

theorem addComment_sorted {now : Int} {s s' : List ChatComment}
    {m : ChatMessage} (h : addComment now s m = .ok s')
    (hs : List.Sorted commentLE s) : List.Sorted commentLE s' := by
  rcases addComment_ok_cases h with h1 | ⟨_, h2⟩
  · exact h1 ▸ hs
  · exact h2 ▸ List.sorted_insertionSort commentLE _

theorem foldlM_addComment_inv (P : List ChatComment → Prop)
    (hP : ∀ (now : Int) (s : List ChatComment) (m : ChatMessage)
      (s' : List ChatComment), P s → addComment now s m = .ok s' → P s') :
    ∀ (now : Int) (ms : List ChatMessage) (s s' : List ChatComment),
      P s → ms.foldlM (addComment now) s = .ok s' → P s' := by
  intro now ms
  induction ms with
  | nil =>
    intro s s' hs h
    simp only [List.foldlM_nil] at h
    exact (Except.ok.inj h) ▸ hs
  | cons m ms ih =>
    intro s s' hs h
    rw [List.foldlM_cons] at h
    cases hadd : addComment now s m with
    | error e => rw [hadd] at h; exact Except.noConfusion h
    | ok s1 =>
      rw [hadd] at h
      exact ih s1 s' (hP now s m s1 hs hadd) h

theorem reachable_inv (P : List ChatComment → Prop) (h0 : P [])
    (hP : ∀ (now : Int) (s : List ChatComment) (m : ChatMessage)
      (s' : List ChatComment), P s → addComment now s m = .ok s' → P s') :
    ∀ s, Reachable s → P s := by
  intro s hs
  induction hs with
  | empty => exact h0
  | step now a s s' _ hstep ih =>
    cases a with
    | add m => exact hP now s m s' ih hstep
    | addMultiple ms => exact foldlM_addComment_inv P hP now ms s s' ih hstep
    | clear => exact (Except.ok.inj hstep) ▸ h0

theorem filter_orderedInsert_timestamp (x : ChatComment)
    (l : List ChatComment) (t : Int) :
    (List.orderedInsert commentLE x l).filter (fun c => c.timestamp == t) =
      (x :: l).filter (fun c => c.timestamp == t) := by
  induction l with
  | nil => rfl
  | cons b l ih =>
    by_cases hxb : commentLE x b
    · rw [List.orderedInsert_of_le commentLE l hxb]
    · rw [List.orderedInsert, if_neg hxb]
      have hlt : b.timestamp < x.timestamp := lt_of_not_le hxb
      simp only [List.filter_cons, ih]
      by_cases hbt : b.timestamp = t
      · have hxt : ¬ x.timestamp = t := by omega
        simp [hbt, hxt]
      · by_cases hxt : x.timestamp = t
        · simp [hbt, hxt]
        · simp [hbt, hxt]

theorem filter_insertionSort_timestamp (l : List ChatComment) (t : Int) :
    (List.insertionSort commentLE l).filter (fun c => c.timestamp == t) =
      l.filter (fun c => c.timestamp == t) := by
  induction l with
  | nil => rfl
  | cons x l ih =>
    rw [List.insertionSort, filter_orderedInsert_timestamp]
    simp only [List.filter_cons, ih]

/-- Claim C1: Add is idempotent per signature — for every store state, wall
clock and envelope, dispatching add twice with the same message (same
systemSignature, hence same commentId) yields the same outcome as
dispatching it once — and no reachable store state holds two comments with
the same commentId. -/
theorem C1_add_idempotent_unique_ids :
    (∀ (now : Int) (s : List ChatComment) (m : ChatMessage),
        (chatCommentsReducer now s (.add m)).bind
            (fun s1 => chatCommentsReducer now s1 (.add m)) =
          chatCommentsReducer now s (.add m))
    ∧ ∀ s, Reachable s → (s.map ChatComment.commentId).Nodup := by
  constructor
  · intro now s m
    show (addComment now s m).bind (fun s1 => addComment now s1 m) =
      addComment now s m
    by_cases h1 : m.timestamp < now - expireTimeMsec
    · simp [addComment, h1, Except.bind]
    · by_cases h2 : m.messageJson.isMalformed = true
      · simp [addComment, h1, h2, Except.bind]
      · by_cases h3 : s.any
            (fun c => c.commentId == (mkChatComment m).commentId) = true
        · simp [addComment, h1, h2, h3, Except.bind]
        · have hmem : mkChatComment m ∈
              List.insertionSort commentLE (s ++ [mkChatComment m]) :=
            (List.perm_insertionSort commentLE _).mem_iff.mpr (by simp)
          have hany : (List.insertionSort commentLE
              (s ++ [mkChatComment m])).any
              (fun c => c.commentId == (mkChatComment m).commentId) = true :=
            List.any_eq_true.mpr ⟨_, hmem, by simp⟩
          simp [addComment, h1, h2, h3, hany, Except.bind]
  · exact reachable_inv _ (by simp)
      (fun now s m s' h hadd => addComment_nodup hadd h)

/-- Concrete instantiation of C1: idempotence at the empty store for the
sample envelope, and distinctness of ids in a reachable one-comment state. -/
theorem C1_witness :
    ((chatCommentsReducer 1000 [] (.add mA)).bind
        (fun s1 => chatCommentsReducer 1000 s1 (.add mA)) =
      chatCommentsReducer 1000 [] (.add mA))
    ∧ ([mkChatComment mA].map ChatComment.commentId).Nodup :=
  ⟨C1_add_idempotent_unique_ids.1 1000 [] mA,
   C1_add_idempotent_unique_ids.2 [mkChatComment mA]
     (Reachable.step 1000 (.add mA) [] [mkChatComment mA]
       Reachable.empty (by rfl))⟩

/-- Claim C2: every store state reachable by add, addMultiple and clear
actions from the empty store has non-decreasing timestamps, and every
accepting add produces the stable ascending re-sort of the previous sequence
with the new comment appended: sorted by timestamp, a permutation of the
appended sequence, and preserving its order inside every class of equal
timestamps. -/
theorem C2_sort_invariant :
    (∀ s, Reachable s → List.Sorted commentLE s)
    ∧ ∀ (now : Int) (s s' : List ChatComment) (m : ChatMessage),
        chatCommentsReducer now s (.add m) = .ok s' → s' ≠ s →
        List.Sorted commentLE s' ∧ s'.Perm (s ++ [mkChatComment m]) ∧
          ∀ t : Int, s'.filter (fun c => c.timestamp == t) =
            (s ++ [mkChatComment m]).filter (fun c => c.timestamp == t) := by
  constructor
  · exact reachable_inv _ List.sorted_nil
      (fun now s m s' h hadd => addComment_sorted hadd h)
  · intro now s s' m h hne
    rcases addComment_ok_cases h with h1 | ⟨_, h2⟩
    · exact absurd h1 hne
    · subst h2
      exact ⟨List.sorted_insertionSort commentLE _,
        List.perm_insertionSort commentLE _,
        fun t => filter_insertionSort_timestamp _ t⟩

/-- Concrete instantiation of C2: sortedness of a reachable two-comment state
built by out-of-order adds, and the stable re-sort property of the accepting
add that produced it. -/
theorem C2_witness :
    List.Sorted commentLE [mkChatComment mB, mkChatComment mA]
    ∧ List.Sorted commentLE [mkChatComment mB, mkChatComment mA]
    ∧ List.Perm [mkChatComment mB, mkChatComment mA]
        ([mkChatComment mA] ++ [mkChatComment mB])
    ∧ [mkChatComment mB, mkChatComment mA].filter
          (fun c => c.timestamp == (4000 : Int)) =
        ([mkChatComment mA] ++ [mkChatComment mB]).filter
          (fun c => c.timestamp == (4000 : Int)) := by
  have hreach : Reachable [mkChatComment mB, mkChatComment mA] :=
    Reachable.step 5000 (.addMultiple [mA, mB]) []
      [mkChatComment mB, mkChatComment mA] Reachable.empty (by rfl)
  have h2 := C2_sort_invariant.2 5000 [mkChatComment mA]
    [mkChatComment mB, mkChatComment mA] mB (by rfl) (by simp [mkChatComment, mA, mB])
  exact ⟨C2_sort_invariant.1 _ hreach, h2.1, h2.2.1, h2.2.2 4000⟩

/-- Counterexample to claim C3 as stated: at wall clock 3605000 the sample
envelope mA has timestamp 5000 = now - expireTimeMsec, yet add accepts it and
changes the state instead of rejecting it — the comparison at line 67 is
strict, so equality with now - expireTimeMsec is on the accepting side. -/
theorem C3_counterexample :
    mA.timestamp = 3605000 - expireTimeMsec
    ∧ chatCommentsReducer 3605000 [] (.add mA) = .ok [mkChatComment mA]
    ∧ [mkChatComment mA] ≠ ([] : List ChatComment) :=
  ⟨by decide, by rfl, by simp⟩

/-- Claim C3 amended: the expiry comparison is strict, so the oldest accepted
timestamp is exactly now - expireTimeMsec.  A message one millisecond older
than that is rejected with no state change; a well-formed non-duplicate
message with timestamp now - expireTimeMsec, or now - expireTimeMsec + 1, is
accepted and inserted. -/
theorem C3_expiry_boundary_amended :
    ∀ (now : Int) (s : List ChatComment) (m : ChatMessage),
      (m.timestamp = now - expireTimeMsec - 1 →
        chatCommentsReducer now s (.add m) = .ok s)
      ∧ (¬ m.messageJson.isMalformed →
          (∀ c ∈ s, c.commentId ≠ m.systemSignature) →
          (m.timestamp = now - expireTimeMsec ∨
            m.timestamp = now - expireTimeMsec + 1) →
          chatCommentsReducer now s (.add m) =
              .ok (List.insertionSort commentLE (s ++ [mkChatComment m]))
            ∧ mkChatComment m ∈
                List.insertionSort commentLE (s ++ [mkChatComment m])) := by
  intro now s m
  constructor
  · intro ht
    have h1 : m.timestamp < now - expireTimeMsec := by omega
    simp [chatCommentsReducer, addComment, h1]
  · intro hmal hfresh ht
    have h1 : ¬ m.timestamp < now - expireTimeMsec := by
      rcases ht with h | h <;> omega
    have hany : s.any
        (fun c => c.commentId == (mkChatComment m).commentId) = false := by
      rw [List.any_eq_false]
      intro c hc
      simp only [beq_iff_eq]
      exact fun hh => hfresh c hc (by simpa [mkChatComment] using hh)
    refine ⟨by simp [chatCommentsReducer, addComment, h1, hmal, hany], ?_⟩
    exact (List.perm_insertionSort commentLE _).mem_iff.mpr (by simp)

/-- Concrete instantiation of the amended C3: rejection one millisecond below
the boundary, acceptance exactly at the boundary. -/
theorem C3_witness :
    chatCommentsReducer 3604001 [] (.add mB) = .ok []
    ∧ chatCommentsReducer 3605000 [] (.add mA) =
        .ok (List.insertionSort commentLE ([] ++ [mkChatComment mA])) := by
  refine ⟨(C3_expiry_boundary_amended 3604001 [] mB).1 (by decide), ?_⟩
  exact ((C3_expiry_boundary_amended 3605000 [] mA).2 (by decide) (by simp)
    (Or.inl (by decide))).1

theorem le_updateCaughtUp : ∀ (cs : List ChatComment) (w : Int),
    w ≤ updateCaughtUp w cs := by
  intro cs
  induction cs with
  | nil => intro w; simp [updateCaughtUp]
  | cons c cs ih =>
    intro w
    by_cases hcw : c.timestamp > w
    · rw [updateCaughtUp, if_pos hcw]
      exact le_trans (le_of_lt hcw) (ih c.timestamp)
    · rw [updateCaughtUp, if_neg hcw]
      exact ih w

theorem timestamp_le_updateCaughtUp : ∀ (cs : List ChatComment) (w : Int),
    ∀ c ∈ cs, c.timestamp ≤ updateCaughtUp w cs := by
  intro cs
  induction cs with
  | nil => intro w c hc; cases hc
  | cons d ds ih =>
    intro w c hc
    rcases List.mem_cons.mp hc with h | h
    · subst h
      by_cases hdw : c.timestamp > w
      · rw [updateCaughtUp, if_pos hdw]
        exact le_updateCaughtUp ds c.timestamp
      · rw [updateCaughtUp, if_neg hdw]
        exact le_trans (not_lt.mp hdw) (le_updateCaughtUp ds w)
    · by_cases hdw : d.timestamp > w
      · rw [updateCaughtUp, if_pos hdw]; exact ih _ c h
      · rw [updateCaughtUp, if_neg hdw]; exact ih _ c h

theorem updateCaughtUp_eq_or_mem : ∀ (cs : List ChatComment) (w : Int),
    updateCaughtUp w cs = w ∨ ∃ c ∈ cs, updateCaughtUp w cs = c.timestamp := by
  intro cs
  induction cs with
  | nil => intro w; exact Or.inl rfl
  | cons d ds ih =>
    intro w
    by_cases hdw : d.timestamp > w
    · rw [updateCaughtUp, if_pos hdw]
      rcases ih d.timestamp with h | ⟨c, hc, h⟩
      · exact Or.inr ⟨d, List.mem_cons_self d ds, h⟩
      · exact Or.inr ⟨c, List.mem_cons_of_mem d hc, h⟩
    · rw [updateCaughtUp, if_neg hdw]
      rcases ih w with h | ⟨c, hc, h⟩
      · exact Or.inl h
      · exact Or.inr ⟨c, List.mem_cons_of_mem d hc, h⟩

theorem chain_caughtUpSets : ∀ (cs : List ChatComment) (w : Int),
    List.Chain (· < ·) w (caughtUpSets w cs) := by
  intro cs
  induction cs with
  | nil => intro w; exact List.Chain.nil
  | cons d ds ih =>
    intro w
    by_cases hdw : d.timestamp > w
    · rw [caughtUpSets, if_pos hdw]
      exact List.Chain.cons hdw (ih d.timestamp)
    · rw [caughtUpSets, if_neg hdw]
      exact ih w

/-- Counterexample to claim C4 as stated: deliver the future-dated comment mA
(timestamp 5000) at wall clock 1000 — it passes the expiry check, and the
update effect sets the watermark to 5000.  handleClearAllComments at wall
clock 2000 then invokes Set with 2000, strictly below the prior Get result
5000: the persisted watermark moves backward during the session. -/
theorem C4_counterexample :
    sessionStep ⟨[], 0⟩ (.deliverComment 1000 mA) =
        .ok (⟨[mkChatComment mA], 5000⟩, [5000])
    ∧ sessionStep ⟨[mkChatComment mA], 5000⟩ (.clearAll 2000) =
        .ok (⟨[], 2000⟩, [2000])
    ∧ (2000 : Int) < 5000 :=
  ⟨by rfl, by rfl, by decide⟩

/-- Claim C4 amended: within the watermark-update effect the watermark is
monotone — every setCaughtUpTimestamp invocation carries a value strictly
above the value the watermark holds at that moment — and after the effect the
persisted value is an upper bound of the pre-existing watermark and of every
stored comment's timestamp, attained by one of them.  The clear-all
maintenance operation, however, sets the watermark unconditionally to
Date.now(), which moves it backward whenever a future-dated comment has
driven the watermark past the wall clock (see the counterexample). -/
theorem C4_watermark_monotone_amended :
    ∀ (w : Int) (cs : List ChatComment),
      List.Chain (· < ·) w (caughtUpSets w cs)
      ∧ w ≤ updateCaughtUp w cs
      ∧ (∀ c ∈ cs, c.timestamp ≤ updateCaughtUp w cs)
      ∧ (updateCaughtUp w cs = w ∨
          ∃ c ∈ cs, updateCaughtUp w cs = c.timestamp) :=
  fun w cs => ⟨chain_caughtUpSets cs w, le_updateCaughtUp cs w,
    timestamp_le_updateCaughtUp cs w, updateCaughtUp_eq_or_mem cs w⟩

/-- Concrete instantiation of the amended C4 at one accepted comment. -/
theorem C4_witness :
    List.Chain (· < ·) 0 (caughtUpSets 0 [mkChatComment mA])
    ∧ (0 : Int) ≤ updateCaughtUp 0 [mkChatComment mA]
    ∧ (mkChatComment mA).timestamp ≤ updateCaughtUp 0 [mkChatComment mA] := by
  obtain ⟨h1, h2, h3, _⟩ := C4_watermark_monotone_amended 0 [mkChatComment mA]
  exact ⟨h1, h2, h3 _ (by simp)⟩

/-- Claim C9 (implicit): the expiry check is a lower bound only — a
well-formed, non-duplicate message with any timestamp at least
now - expireTimeMsec, arbitrarily far in the future included, is accepted and
inserted, and the watermark-update effect then drives the persisted watermark
to at least that timestamp, hence past the current wall clock for a
future-dated comment. -/
theorem C9_no_upper_timestamp_bound :
    ∀ (now w : Int) (s : List ChatComment) (m : ChatMessage),
      now - expireTimeMsec ≤ m.timestamp →
      ¬ m.messageJson.isMalformed →
      (∀ c ∈ s, c.commentId ≠ m.systemSignature) →
      chatCommentsReducer now s (.add m) =
          .ok (List.insertionSort commentLE (s ++ [mkChatComment m]))
      ∧ mkChatComment m ∈ List.insertionSort commentLE (s ++ [mkChatComment m])
      ∧ m.timestamp ≤
          updateCaughtUp w (List.insertionSort commentLE (s ++ [mkChatComment m]))
      ∧ (now < m.timestamp → now <
          updateCaughtUp w
            (List.insertionSort commentLE (s ++ [mkChatComment m]))) := by
  intro now w s m hts hmal hfresh
  have h1 : ¬ m.timestamp < now - expireTimeMsec := not_lt.mpr hts
  have hany : s.any
      (fun c => c.commentId == (mkChatComment m).commentId) = false := by
    rw [List.any_eq_false]
    intro c hc
    simp only [beq_iff_eq]
    exact fun hh => hfresh c hc (by simpa [mkChatComment] using hh)
  have hmem : mkChatComment m ∈
      List.insertionSort commentLE (s ++ [mkChatComment m]) :=
    (List.perm_insertionSort commentLE _).mem_iff.mpr (by simp)
  have hle : m.timestamp ≤
      updateCaughtUp w (List.insertionSort commentLE (s ++ [mkChatComment m])) :=
    timestamp_le_updateCaughtUp _ w (mkChatComment m) hmem
  exact ⟨by simp [chatCommentsReducer, addComment, h1, hmal, hany], hmem, hle,
    fun hfut => lt_of_lt_of_le hfut hle⟩

/-- Concrete instantiation of C9: a comment dated 4000 milliseconds in the
future is accepted at wall clock 1000 and pushes the watermark past now. -/
theorem C9_witness :
    chatCommentsReducer 1000 [] (.add mA) =
        .ok (List.insertionSort commentLE ([] ++ [mkChatComment mA]))
    ∧ (1000 : Int) <
        updateCaughtUp 0 (List.insertionSort commentLE ([] ++ [mkChatComment mA])) := by
  obtain ⟨h1, _, _, h4⟩ :=
    C9_no_upper_timestamp_bound 1000 0 [] mA (by decide) (by decide) (by simp)
  exact ⟨h1, h4 (by decide)⟩

theorem addComment_accepts {now : Int} {s : List ChatComment}
    {m : ChatMessage} (h1 : ¬ m.timestamp < now - expireTimeMsec)
    (hmal : m.messageJson.isMalformed = false)
    (hfresh : ∀ c ∈ s, c.commentId ≠ m.systemSignature) :
    addComment now s m =
      .ok (List.insertionSort commentLE (s ++ [mkChatComment m])) := by
  have hany : s.any
      (fun c => c.commentId == (mkChatComment m).commentId) = false := by
    rw [List.any_eq_false]
    intro c hc
    simp only [beq_iff_eq]
    exact fun hh => hfresh c hc (by simpa [mkChatComment] using hh)
  simp [addComment, h1, hmal, hany]

/-- Claim C10 (implicit): add performs no payload-type validation — an
unexpired, non-duplicate envelope whose payload is a request-history message
is inserted as a comment whose userName and comment fields are undefined —
and the history ingestion path forwards contained envelopes to add without
inspecting their own payload type, so a request-history envelope inside a
received history batch becomes a store comment with undefined userName and
text. -/
theorem C10_add_no_type_validation :
    (∀ (now : Int) (s : List ChatComment) (m : ChatMessage) (ts : Int),
      m.messageJson = .requestHistory ts →
      ¬ m.timestamp < now - expireTimeMsec →
      (∀ c ∈ s, c.commentId ≠ m.systemSignature) →
      chatCommentsReducer now s (.add m) =
          .ok (List.insertionSort commentLE (s ++ [mkChatComment m]))
      ∧ (mkChatComment m).userName = none ∧ (mkChatComment m).comment = none)
    ∧ ∀ (now w : Int) (size : ChatMessage → Nat) (s : List ChatComment)
        (mh c : ChatMessage) (ts : Int),
        mh.messageJson = .history [c] →
        c.messageJson = .requestHistory ts →
        ¬ c.timestamp < w →
        ¬ c.timestamp < now - expireTimeMsec →
        (∀ cc ∈ s, cc.commentId ≠ c.systemSignature) →
        onMessage now w size s mh =
            .ok (List.insertionSort commentLE (s ++ [mkChatComment c]), [])
        ∧ (mkChatComment c).userName = none
        ∧ (mkChatComment c).comment = none := by
  constructor
  · intro now s m ts hjson hexp hfresh
    have hmal : m.messageJson.isMalformed = false := by
      rw [hjson]; rfl
    refine ⟨addComment_accepts hexp hmal hfresh, ?_, ?_⟩
    · simp [mkChatComment, hjson, MsgJson.userNameField]
    · simp [mkChatComment, hjson, MsgJson.commentField]
  · intro now w size s mh c ts hmh hcj hw hexp hfresh
    have hmal : c.messageJson.isMalformed = false := by
      rw [hcj]; rfl
    have haddc := addComment_accepts hexp hmal hfresh
    cases mh with
    | mk sig pk t j =>
      simp only [ChatMessage.messageJson] at hmh
      subst hmh
      refine ⟨?_, ?_, ?_⟩
      · simp [onMessage, ChatMessage.messageJson, List.foldlM_cons,
          List.foldlM_nil, hw, haddc, Except.map]
      · simp [mkChatComment, hcj, MsgJson.userNameField]
      · simp [mkChatComment, hcj, MsgJson.commentField]

/-- Concrete instantiation of C10: the request-history envelope mReq, both
added directly and ingested from a history batch, lands in the store as a
comment with undefined userName and text. -/
theorem C10_witness :
    chatCommentsReducer 1000 [] (.add mReq) =
        .ok (List.insertionSort commentLE ([] ++ [mkChatComment mReq]))
    ∧ (mkChatComment mReq).userName = none
    ∧ onMessage 1000 0 (fun _ => 0) []
        (.mk "sigH" "pkH" 0 (.history [mReq])) =
        .ok (List.insertionSort commentLE ([] ++ [mkChatComment mReq]), []) := by
  obtain ⟨h1, h2, _⟩ := C10_add_no_type_validation.1 1000 [] mReq 7 (by rfl)
    (by decide) (by simp)
  obtain ⟨h3, _, _⟩ := C10_add_no_type_validation.2 1000 0 (fun _ => 0) []
    (.mk "sigH" "pkH" 0 (.history [mReq])) mReq 7 (by rfl) (by rfl)
    (by decide) (by decide) (by simp)
  exact ⟨h1, h2, h3⟩

theorem foldlM_history_filter (now w : Int) :
    ∀ (cs : List ChatMessage) (s : List ChatComment),
      cs.foldlM
          (fun s c => if c.timestamp < w then pure s else addComment now s c)
          s =
        (cs.filter (fun c => decide (w ≤ c.timestamp))).foldlM
          (addComment now) s := by
  intro cs
  induction cs with
  | nil => intro s; rfl
  | cons c cs ih =>
    intro s
    by_cases hcw : c.timestamp < w
    · have hf : decide (w ≤ c.timestamp) = false := by
        simp [not_le.mpr hcw]
      rw [List.foldlM_cons, if_pos hcw, List.filter_cons, hf]
      simpa using ih s
    · have hf : decide (w ≤ c.timestamp) = true := by
        simp [not_lt.mp hcw]
      simp only [List.foldlM_cons, if_neg hcw, List.filter_cons, hf, if_true]
      cases hadd : addComment now s c with
      | error e => rfl
      | ok s1 => exact ih s1

theorem foldlM_addComment_mem (now : Int) :
    ∀ (ms : List ChatMessage) (s s' : List ChatComment),
      ms.foldlM (addComment now) s = .ok s' →
      ∀ x ∈ s', x ∈ s ∨ ∃ m ∈ ms, x = mkChatComment m := by
  intro ms
  induction ms with
  | nil =>
    intro s s' h x hx
    rw [List.foldlM_nil] at h
    exact Or.inl ((Except.ok.inj h) ▸ hx)
  | cons m ms ih =>
    intro s s' h x hx
    rw [List.foldlM_cons] at h
    cases hadd : addComment now s m with
    | error e => rw [hadd] at h; exact Except.noConfusion h
    | ok s1 =>
      rw [hadd] at h
      rcases ih s1 s' h x hx with h1 | ⟨m', hm', he⟩
      · rcases addComment_mem hadd x h1 with h2 | h2
        · exact Or.inl h2
        · exact Or.inr ⟨m, List.mem_cons_self m ms, h2⟩
      · exact Or.inr ⟨m', List.mem_cons_of_mem _ hm', he⟩

/-- Claim C5: history ingestion compares each contained envelope against the
watermark read at ingestion time — the envelopes with timestamp at least the
watermark are fed to add as ordinary arrivals in batch order, while an
envelope with timestamp strictly below the watermark is discarded: when the
store does not already hold its signature and no other envelope of the batch
carries it above the watermark, no comment with its commentId appears in the
resulting store, even for an otherwise valid, unexpired envelope. -/
theorem C5_history_filter :
    ∀ (now w : Int) (size : ChatMessage → Nat) (s : List ChatComment)
      (mh : ChatMessage) (cs : List ChatMessage),
      mh.messageJson = .history cs →
      (onMessage now w size s mh =
        ((cs.filter (fun c => decide (w ≤ c.timestamp))).foldlM
            (addComment now) s).map (fun s1 => (s1, [])))
      ∧ ∀ (c : ChatMessage) (s' : List ChatComment) (pubs : List MsgJson),
          c ∈ cs → c.timestamp < w →
          (∀ cc ∈ s, cc.commentId ≠ c.systemSignature) →
          (∀ c' ∈ cs, c'.systemSignature = c.systemSignature →
            c'.timestamp < w) →
          onMessage now w size s mh = .ok (s', pubs) →
          ∀ cc ∈ s', cc.commentId ≠ c.systemSignature := by
  intro now w size s mh cs hmh
  have heq : onMessage now w size s mh =
      ((cs.filter (fun c => decide (w ≤ c.timestamp))).foldlM
          (addComment now) s).map (fun s1 => (s1, [])) := by
    cases mh with
    | mk sig pk t j =>
      simp only [ChatMessage.messageJson] at hmh
      subst hmh
      simp only [onMessage, ChatMessage.messageJson]
      rw [foldlM_history_filter]
  refine ⟨heq, ?_⟩
  intro c s' pubs hc hcw hsfresh hsig hok
  rw [heq] at hok
  cases hfold : (cs.filter (fun c => decide (w ≤ c.timestamp))).foldlM
      (addComment now) s with
  | error e => rw [hfold] at hok; exact Except.noConfusion hok
  | ok s1 =>
    rw [hfold] at hok
    have hs1 : s1 = s' := congrArg Prod.fst (Except.ok.inj hok)
    subst hs1
    intro cc hcc hid
    rcases foldlM_addComment_mem now _ s s1 hfold cc hcc with h1 | ⟨m', hm', he⟩
    · exact hsfresh cc h1 hid
    · obtain ⟨hm'cs, hm'w⟩ := List.mem_filter.mp hm'
      have : m'.systemSignature = c.systemSignature := by
        rw [he] at hid
        simpa [mkChatComment] using hid
      have := hsig m' hm'cs this
      simp only [decide_eq_true_eq] at hm'w
      omega

/-- Concrete instantiation of C5 at the two-envelope history batch containing
mB (below the watermark 4500, discarded) and mA (above it, added): the store
ends up holding exactly the comment for mA, and no comment carries mB's
signature. -/
theorem C5_witness :
    onMessage 1000 4500 (fun _ => 0) [] (.mk "sigH" "pkH" 0 (.history [mB, mA])) =
        (([mB, mA].filter (fun c => decide ((4500 : Int) ≤ c.timestamp))).foldlM
            (addComment 1000) []).map (fun s1 => (s1, []))
    ∧ (mkChatComment mA).commentId ≠ mB.systemSignature := by
  obtain ⟨h1, h2⟩ := C5_history_filter 1000 4500 (fun _ => 0) []
    (.mk "sigH" "pkH" 0 (.history [mB, mA])) [mB, mA] (by rfl)
  refine ⟨h1, ?_⟩
  refine h2 mB [mkChatComment mA] [] (by simp) (by decide) (by simp)
    ?_ (by rfl) (mkChatComment mA) (by simp)
  intro c' hc' hsig
  rcases List.mem_cons.mp hc' with h | h
  · subst h; decide
  · rcases List.mem_singleton.mp h with h
    subst h
    exact absurd hsig (by decide)

theorem takeBatch_spec (startTimestamp : Int) (size : ChatMessage → Nat) :
    ∀ (l : List ChatComment) (size0 : Nat) (acc : List ChatMessage),
      size0 = (acc.map size).sum →
      (acc ≠ [] → ((acc.tail.map size).sum) < 10000) →
      (takeBatch startTimestamp size l size0 acc).1 ≠ [] →
      (((takeBatch startTimestamp size l size0 acc).1.dropLast.map size).sum)
        < 10000 := by
  intro l
  induction l with
  | nil =>
    intro size0 acc hsum hinv hne
    simp only [takeBatch] at hne ⊢
    rw [List.dropLast_reverse, List.map_reverse, List.sum_reverse]
    exact hinv (fun h => hne (by simp [h]))
  | cons c rest ih =>
    intro size0 acc hsum hinv hne
    by_cases h0 : size0 < 10000
    · rw [takeBatch, if_pos h0] at hne ⊢
      by_cases hts : c.chatMessage.timestamp > startTimestamp
      · rw [if_pos hts] at hne ⊢
        refine ih _ _ ?_ ?_ hne
        · simp [hsum, Nat.add_comm]
        · intro _
          simpa [← hsum] using h0
      · rw [if_neg hts] at hne ⊢
        exact ih _ _ hsum hinv hne
    · rw [takeBatch, if_neg h0] at hne ⊢
      simp only at hne ⊢
      rw [List.dropLast_reverse, List.map_reverse, List.sum_reverse]
      exact hinv (fun h => hne (by simp [h]))

theorem takeBatch_rest_length (startTimestamp : Int) (size : ChatMessage → Nat) :
    ∀ (l : List ChatComment) (size0 : Nat) (acc : List ChatMessage),
      (takeBatch startTimestamp size l size0 acc).2.length ≤ l.length := by
  intro l
  induction l with
  | nil => intro _ _; simp [takeBatch]
  | cons d ds ih =>
    intro size0 acc
    simp only [takeBatch]
    split
    · split <;> exact le_trans (ih _ _) (Nat.le_succ _)
    · simp

theorem takeBatch_all_filtered (startTimestamp : Int) (size : ChatMessage → Nat) :
    ∀ (l : List ChatComment) (size0 : Nat) (acc : List ChatMessage),
      size0 < 10000 →
      (∀ c ∈ l, ¬ startTimestamp < c.chatMessage.timestamp) →
      takeBatch startTimestamp size l size0 acc = (acc.reverse, []) := by
  intro l
  induction l with
  | nil => intro _ _ _ _; rfl
  | cons c rest ih =>
    intro size0 acc h0 hall
    rw [takeBatch, if_pos h0, if_neg (hall c (List.mem_cons_self c rest))]
    exact ih size0 acc h0 (fun d hd => hall d (List.mem_cons_of_mem c hd))

theorem sendBatches_batches (startTimestamp : Int) (size : ChatMessage → Nat) :
    ∀ (comments : List ChatComment),
      ∀ b ∈ sendBatches startTimestamp size comments,
        b ≠ [] ∧ ((b.dropLast.map size).sum) < 10000 := by
  have key : ∀ (n : Nat) (comments : List ChatComment), comments.length = n →
      ∀ b ∈ sendBatches startTimestamp size comments,
        b ≠ [] ∧ ((b.dropLast.map size).sum) < 10000 := by
    intro n
    induction n using Nat.strong_induction_on with
    | _ n ih =>
      intro comments hn
      cases comments with
      | nil => intro b hb; rw [sendBatches] at hb; cases hb
      | cons c rest =>
        intro b hb
        rw [sendBatches] at hb
        have hlen : (takeBatch startTimestamp size (c :: rest) 0 []).2.length
            < n := by
          have h1 : (takeBatch startTimestamp size (c :: rest) 0 []).2.length
              ≤ rest.length := by
            rw [takeBatch, if_pos (by norm_num)]
            split <;> exact takeBatch_rest_length startTimestamp size rest _ _
          simp only [List.length_cons] at hn
          omega
        by_cases hemp :
            (takeBatch startTimestamp size (c :: rest) 0 []).1.isEmpty
        · rw [if_pos hemp] at hb
          exact ih _ hlen _ rfl b hb
        · rw [if_neg hemp] at hb
          rcases List.mem_cons.mp hb with h | h
          · subst h
            have hne : (takeBatch startTimestamp size (c :: rest) 0 []).1 ≠ []
              := fun h => hemp (by simp [h])
            exact ⟨hne, takeBatch_spec startTimestamp size _ 0 [] rfl
              (fun h => absurd rfl h) hne⟩
          · exact ih _ hlen _ rfl b h
  intro comments
  exact key comments.length comments rfl

/-- Claim C6: every history batch the responder publishes is non-empty and
its cumulative serialized size before its last message was added is strictly
below the 10000-unit threshold (so a batch overshoots the threshold by at
most one message); a request for which no stored comment has timestamp
greater than startTimestamp publishes nothing; and the handler publishes
exactly the batches computed from the store. -/
theorem C6_batch_size_bound :
    ∀ (startTimestamp : Int) (size : ChatMessage → Nat)
      (comments : List ChatComment),
      (∀ b ∈ sendBatches startTimestamp size comments,
        b ≠ [] ∧ ((b.dropLast.map size).sum) < 10000)
      ∧ ((∀ c ∈ comments, ¬ startTimestamp < c.chatMessage.timestamp) →
          sendBatches startTimestamp size comments = [])
      ∧ ∀ (now w : Int) (m : ChatMessage),
          m.messageJson = .requestHistory startTimestamp →
          onMessage now w size comments m =
            .ok (comments,
              (sendBatches startTimestamp size comments).map MsgJson.history) := by
  intro startTimestamp size comments
  refine ⟨sendBatches_batches startTimestamp size comments, ?_, ?_⟩
  · intro hall
    cases comments with
    | nil => rw [sendBatches]
    | cons c rest =>
      rw [sendBatches,
        takeBatch_all_filtered startTimestamp size (c :: rest) 0 []
          (by norm_num) hall]
      simp [sendBatches]
  · intro now w m hm
    cases m with
    | mk sig pk t j =>
      simp only [ChatMessage.messageJson] at hm
      subst hm
      simp [onMessage, ChatMessage.messageJson]

/-- Concrete instantiation of C6: with two matching comments of serialized
size 6000 each, a single batch of both is published (dropping its last
element leaves 6000 < 10000, while the full batch occupies 12000, the
one-message overshoot); with a startTimestamp above every comment, nothing is
published. -/
theorem C6_witness :
    ([mB, mA] ≠ ([] : List ChatMessage)
      ∧ (([mB, mA].dropLast.map (fun _ => (6000 : Nat))).sum) < 10000)
    ∧ sendBatches 10000 (fun _ => 6000)
        [mkChatComment mB, mkChatComment mA] = [] := by
  constructor
  · obtain ⟨h1, _, _⟩ := C6_batch_size_bound 0 (fun _ => 6000)
      [mkChatComment mB, mkChatComment mA]
    refine h1 [mB, mA] ?_
    have he : sendBatches 0 (fun _ => (6000 : Nat))
        [mkChatComment mB, mkChatComment mA] = [[mB, mA]] := by
      rw [sendBatches, takeBatch]
      norm_num [mkChatComment, mA, mB, ChatMessage.timestamp, takeBatch,
        sendBatches]
    rw [he]
    simp
  · obtain ⟨_, h2, _⟩ := C6_batch_size_bound 10000 (fun _ => 6000)
      [mkChatComment mB, mkChatComment mA]
    exact h2 (by decide)

/-- Counterexample to claim C7 as stated: the handler parses messageJson at
line 119 before any dispatch, with no surrounding try/catch, so a delivered
envelope whose payload string does not decode makes JSON.parse throw, and the
exception propagates to the handler's caller instead of being absorbed
locally. -/
theorem C7_counterexample :
    onMessage 0 0 (fun _ => 0) [] mBad = .error () := by rfl

/-- Claim C7 amended: a delivered envelope whose decoded payload carries an
unrecognized type is silently ignored — the handler returns with the store
unchanged and publishes nothing — but the handler is not total: a messageJson
that does not decode makes the unguarded JSON.parse at line 119 throw, and
the exception propagates to the caller. -/
theorem C7_router_amended :
    ∀ (now w : Int) (size : ChatMessage → Nat) (s : List ChatComment)
      (m : ChatMessage),
      (m.messageJson = .unknownType → onMessage now w size s m = .ok (s, []))
      ∧ (m.messageJson = .malformed → onMessage now w size s m = .error ()) := by
  intro now w size s m
  cases m with
  | mk sig pk t j =>
    constructor
    · intro h
      simp only [ChatMessage.messageJson] at h
      subst h
      rfl
    · intro h
      simp only [ChatMessage.messageJson] at h
      subst h
      rfl

/-- Concrete instantiation of the amended C7: an envelope with an
unrecognized payload type leaves a non-empty store untouched. -/
theorem C7_witness :
    onMessage 5 7 (fun _ => 1) [mkChatComment mA]
        (.mk "sigU" "pkU" 0 .unknownType) = .ok ([mkChatComment mA], []) :=
  (C7_router_amended 5 7 (fun _ => 1) [mkChatComment mA]
    (.mk "sigU" "pkU" 0 .unknownType)).1 rfl

theorem digit_ne {c : Char} (h48 : 48 ≤ c.toNat) (h57 : c.toNat ≤ 57)
    (d : Char) (hd : d.toNat < 48 ∨ 57 < d.toNat) : c ≠ d := by
  intro h
  subst h
  omega

theorem jsWhitespace_digit {c : Char} (h48 : 48 ≤ c.toNat)
    (h57 : c.toNat ≤ 57) : jsWhitespace c = false := by
  have h1 := digit_ne h48 h57 ' ' (by decide)
  have h2 := digit_ne h48 h57 (Char.ofNat 9) (by decide)
  have h3 := digit_ne h48 h57 (Char.ofNat 10) (by decide)
  have h4 := digit_ne h48 h57 (Char.ofNat 13) (by decide)
  simp only [jsWhitespace]
  have e2 : '\t' = Char.ofNat 9 := by decide
  have e3 : '\n' = Char.ofNat 10 := by decide
  have e4 : '\r' = Char.ofNat 13 := by decide
  rw [e2, e3, e4]
  simp [h1, h2, h3, h4]

theorem digitValue_digit {c : Char} (h48 : 48 ≤ c.toNat)
    (h57 : c.toNat ≤ 57) :
    digitValue c = c.toNat - 48 ∧ digitValue c < 10 := by
  have h0 : '0' ≤ c := h48
  have h9 : c ≤ '9' := h57
  rw [digitValue, if_pos ⟨h0, h9⟩]
  omega

theorem digitValue_ge_of_not_digit {c : Char} (h : ¬ c.isDigit = true) :
    10 ≤ digitValue c := by
  rw [digitValue]
  have hn : ¬ ('0' ≤ c ∧ c ≤ '9') := by
    intro hh
    refine h ?_
    simp only [Char.isDigit, Bool.and_eq_true, decide_eq_true_eq]
    exact ⟨hh.1, hh.2⟩
  rw [if_neg hn]
  split
  · omega
  · split
    · omega
    · omega

theorem takeWhile_digits (l : List Char)
    (h : ∀ x ∈ l, digitValue x < 10) :
    l.takeWhile (fun c => decide (digitValue c < 10)) = l := by
  induction l with
  | nil => rfl
  | cons c t ih =>
    rw [List.takeWhile_cons]
    simp [h c (List.mem_cons_self c t),
      ih (fun x hx => h x (List.mem_cons_of_mem c hx))]

theorem foldl_digits_eq_ofDigits (radix : Nat) :
    ∀ (l : List Char) (acc : Nat),
      l.foldl (fun a c => a * radix + digitValue c) acc =
        acc * radix ^ l.length +
          Nat.ofDigits radix ((l.map digitValue).reverse) := by
  intro l
  induction l with
  | nil => intro acc; simp [Nat.ofDigits]
  | cons c t ih =>
    intro acc
    rw [List.foldl_cons, ih]
    simp only [List.map_cons, List.reverse_cons, List.length_cons]
    rw [Nat.ofDigits_append]
    simp only [List.length_reverse, List.length_map, Nat.ofDigits,
      Nat.ofDigits_nil]
    push_cast
    ring

theorem parseIntJS_digits (c : Char) (t : List Char)
    (hd : ∀ x ∈ c :: t, 48 ≤ x.toNat ∧ x.toNat ≤ 57) :
    parseIntJS (String.mk (c :: t)) =
      .int (Nat.ofDigits 10 (((c :: t).map digitValue).reverse)) := by
  obtain ⟨h48, h57⟩ := hd c (List.mem_cons_self c t)
  have hws : jsWhitespace c = false := jsWhitespace_digit h48 h57
  have hdrop : (c :: t).dropWhile jsWhitespace = c :: t := by
    rw [List.dropWhile_cons, hws]
    simp
  have hminus : (c :: t).head? ≠ some '-' := by
    rw [List.head?_cons]
    intro h
    exact digit_ne h48 h57 '-' (by decide) (Option.some.inj h)
  have hplus : (c :: t).head? ≠ some '+' := by
    rw [List.head?_cons]
    intro h
    exact digit_ne h48 h57 '+' (by decide) (Option.some.inj h)
  have hhex : ∀ d : Char, 57 < d.toNat ∨ d.toNat < 48 →
      (c :: t).take 2 ≠ ['0', d] := by
    intro d hdne h
    cases t with
    | nil => simp [List.take] at h
    | cons e t' =>
      simp only [List.take, List.cons.injEq, and_true] at h
      obtain ⟨h1, h2⟩ := h
      obtain ⟨he48, he57⟩ := hd e (List.mem_cons_of_mem c
        (List.mem_cons_self e t'))
      rw [h2] at he48 he57
      omega
  have hx := hhex 'x' (by decide)
  have hX := hhex 'X' (by decide)
  have hall : ∀ x ∈ c :: t, digitValue x < 10 := by
    intro x hx'
    obtain ⟨a, b⟩ := hd x hx'
    exact (digitValue_digit a b).2
  simp only [parseIntJS, hdrop, if_neg hminus,
    if_neg (show ¬ ((c :: t).head? = some '-' ∨ (c :: t).head? = some '+')
      from fun h => h.elim hminus hplus),
    if_neg (show ¬ ((c :: t).take 2 = ['0', 'x'] ∨
        (c :: t).take 2 = ['0', 'X']) from fun h => h.elim hx hX),
    takeWhile_digits (c :: t) hall]
  rw [if_neg (by simp)]
  rw [foldl_digits_eq_ofDigits]
  simp only [List.length_cons, Nat.zero_mul, Nat.zero_add, one_mul]
  norm_cast

theorem parseIntJS_no_numeric_prefix (c : Char) (t : List Char)
    (hdig : ¬ c.isDigit = true) (hws : ¬ jsWhitespace c = true)
    (hm : c ≠ '-') (hp : c ≠ '+') :
    parseIntJS (String.mk (c :: t)) = .nan := by
  have hdrop : (c :: t).dropWhile jsWhitespace = c :: t := by
    rw [List.dropWhile_cons]
    simp only [Bool.not_eq_true] at hws
    rw [hws]
    simp
  have hminus : (c :: t).head? ≠ some '-' := by
    rw [List.head?_cons]
    intro h
    exact hm (Option.some.inj h)
  have hplus : (c :: t).head? ≠ some '+' := by
    rw [List.head?_cons]
    intro h
    exact hp (Option.some.inj h)
  have hzero : c ≠ '0' := by
    intro h
    subst h
    exact hdig (by decide)
  have hhex : ∀ d : Char, (c :: t).take 2 ≠ ['0', d] := by
    intro d h
    cases t with
    | nil => simp [List.take] at h
    | cons e t' =>
      simp only [List.take, List.cons.injEq, and_true] at h
      exact hzero h.1
  have hfail : decide (digitValue c < 10) = false := by
    simp only [decide_eq_false_iff_not, not_lt]
    exact digitValue_ge_of_not_digit hdig
  simp only [parseIntJS, hdrop, if_neg hminus,
    if_neg (show ¬ ((c :: t).head? = some '-' ∨ (c :: t).head? = some '+')
      from fun h => h.elim hminus hplus),
    if_neg (show ¬ ((c :: t).take 2 = ['0', 'x'] ∨
        (c :: t).take 2 = ['0', 'X']) from fun h => h.elim (hhex 'x') (hhex 'X')),
    List.takeWhile_cons, hfail]
  rfl

/-- Counterexample to claim C8 as stated: with the stored watermark string
"abc" — present, truthy, but malformed — Get returns NaN (parseInt returns
NaN without throwing, and nothing maps it to the default), not the default
now - 24h the claim requires for every malformed stored value. -/
theorem C8_counterexample :
    getCaughtUpTimestamp (.ok (some "abc")) 0 = .nan
    ∧ JSNumber.nan ≠ .int (0 - 1000 * 60 * 60 * 24) :=
  ⟨by rfl, by decide⟩

/-- Claim C8 amended: Get returns the persisted value when the stored string
is a decimal numeral (the only form setCaughtUpTimestamp writes), and returns
the default now - 24h when the stored value is absent, empty, or the read
throws; but a malformed stored value is not mapped to the default: parseInt
does not throw — a stored string with no parseable numeric prefix yields NaN,
which Get returns as is. -/
theorem C8_watermark_read_fallback_amended :
    ∀ (now : Int),
      (getCaughtUpTimestamp (.ok none) now =
        .int (now - 1000 * 60 * 60 * 24))
      ∧ (getCaughtUpTimestamp (.error ()) now =
          .int (now - 1000 * 60 * 60 * 24))
      ∧ (getCaughtUpTimestamp (.ok (some "")) now =
          .int (now - 1000 * 60 * 60 * 24))
      ∧ (∀ (c : Char) (t : List Char),
          (∀ x ∈ c :: t, 48 ≤ x.toNat ∧ x.toNat ≤ 57) →
          getCaughtUpTimestamp (.ok (some (String.mk (c :: t)))) now =
            .int (Nat.ofDigits 10 (((c :: t).map digitValue).reverse)))
      ∧ (∀ (c : Char) (t : List Char),
          ¬ c.isDigit → ¬ jsWhitespace c → c ≠ '-' → c ≠ '+' →
          getCaughtUpTimestamp (.ok (some (String.mk (c :: t)))) now =
            .nan) := by
  intro now
  refine ⟨rfl, rfl, rfl, ?_, ?_⟩
  · intro c t hd
    have hne : String.mk (c :: t) ≠ "" := by
      intro h
      exact List.noConfusion (congrArg String.data h)
    rw [getCaughtUpTimestamp, if_pos hne]
    exact parseIntJS_digits c t hd
  · intro c t hdig hws hm hp
    have hne : String.mk (c :: t) ≠ "" := by
      intro h
      exact List.noConfusion (congrArg String.data h)
    rw [getCaughtUpTimestamp, if_pos hne]
    exact parseIntJS_no_numeric_prefix c t hdig hws hm hp

/-- Concrete instantiation of the amended C8: absent value falls back to the
default, the stored numeral "42" is returned as 42, and the malformed stored
string "abc" comes back as NaN. -/
theorem C8_witness :
    getCaughtUpTimestamp (.ok none) 0 = .int (0 - 1000 * 60 * 60 * 24)
    ∧ getCaughtUpTimestamp (.ok (some (String.mk ['4', '2']))) 0 =
        .int (Nat.ofDigits 10 ((['4', '2'].map digitValue).reverse))
    ∧ getCaughtUpTimestamp (.ok (some (String.mk ['a', 'b', 'c']))) 0 =
        .nan := by
  obtain ⟨h1, _, _, h4, h5⟩ := C8_watermark_read_fallback_amended 0
  exact ⟨h1, h4 '4' ['2'] (by decide),
    h5 'a' ['b', 'c'] (by decide) (by decide) (by decide) (by decide)⟩

end WorkshopChat
